import Mathlib

/-!
Verification of the llfio dynamic thread pool group and of the
boost.afio shared filesystem mutex `memory_map`, against their sources.

The file is organised in two namespaces:

* `MemoryMap` embeds `memory_map::_hash_entities`, `memory_map::_lock`
  and `memory_map::unlock` from
  `src/include/boost/afio/v2.0/algorithm/shared_fs_mutex/memory_map.hpp`.
* `DTPG` embeds the `dynamic_thread_pool_group::work_item` move
  constructor and destructor from
  `src/include/llfio/v2.0/dynamic_thread_pool_group.hpp`, together with
  an operational model of the global dynamic thread pool scheduler.
-/

set_option autoImplicit false

namespace MemoryMap

/-- An entity as in `shared_fs_mutex::entity_type`: an id value together
with an exclusive flag. -/
structure EntityType where
  value : Nat
  exclusive : Bool
deriving DecidableEq, Repr

/-- `memory_map::_entity_idx`: a hashed slot index together with an
exclusive flag. -/
structure EntityIdx where
  value : Nat
  exclusive : Bool
deriving DecidableEq, Repr

instance : Inhabited EntityIdx := ⟨⟨0, false⟩⟩

/-- The slot an entity hashes to:
`Hasher()(entities[n].value) % _container_entries`.  The hash function
itself (`fnv1a_hash`, from the external boost-lite library) and
`_container_entries` (4096 divided by the spinlock size) are parameters. -/
def slotOf (hash : Nat → Nat) (ce : Nat) (e : EntityType) : Nat :=
  hash e.value % ce

/-- The inner collision scan of `_hash_entities`
(`for(size_t m = 0; m < n; m++) ...`): positions `0 ≤ m < n` of the
working array whose `value` equals `slot` get their exclusive bit raised
when `excl` is set, and their existence makes the result flag (the
`skip` local) true.  The working alloca buffer is modelled as a function
from index to `EntityIdx`. -/
def hashScan (slot : Nat) (excl : Bool) : Nat → (Nat → EntityIdx) → (Nat → EntityIdx) × Bool
  | 0, arr => (arr, false)
  | m + 1, arr =>
    let p := hashScan slot excl m arr
    let e := p.1 m
    if e.value = slot then
      (Function.update p.1 m ⟨e.value, e.exclusive || excl⟩, true)
    else p

/-- The outer loop of `_hash_entities`: `n` counts entities processed so
far, `kept` is the offset `ep - entity_to_idx` of the next free slot of
the working buffer.  Each entity is first written at position `kept`,
then the first `n` buffer positions are scanned for an equal slot value;
on a match the entity is skipped, otherwise `ep` advances. -/
def hashEntitiesLoop (hash : Nat → Nat) (ce : Nat) :
    List EntityType → Nat → Nat → (Nat → EntityIdx) → (Nat → EntityIdx) × Nat
  | [], _, kept, arr => (arr, kept)
  | ent :: rest, n, kept, arr =>
    let slot := hash ent.value % ce
    let arr1 := Function.update arr kept ⟨slot, ent.exclusive⟩
    let p := hashScan slot ent.exclusive n arr1
    hashEntitiesLoop hash ce rest (n + 1) (if p.2 then kept else kept + 1) p.1

/-- `memory_map::_hash_entities`: returns the span of the first `kept`
entries of the working buffer.  `init` is the (uninitialised) alloca
buffer contents. -/
def hash_entities (hash : Nat → Nat) (ce : Nat) (entities : List EntityType)
    (init : Nat → EntityIdx) : List EntityIdx :=
  let p := hashEntitiesLoop hash ce entities 0 0 init
  (List.range p.2).map p.1

theorem hashScan_fst_apply (slot : Nat) (excl : Bool) (n : Nat) (arr : Nat → EntityIdx) :
    ∀ j, (hashScan slot excl n arr).1 j =
      if j < n ∧ (arr j).value = slot then
        ⟨(arr j).value, (arr j).exclusive || excl⟩
      else arr j := by
  induction n with
  | zero =>
    intro j
    simp [hashScan]
  | succ m ih =>
    intro j
    have hm : (hashScan slot excl m arr).1 m = arr m := by
      rw [ih m]
      simp
    simp only [hashScan]
    by_cases hv : (arr m).value = slot
    · rw [hm, if_pos hv]
      dsimp only
      by_cases hj : j = m
      · subst hj
        rw [Function.update_same, if_pos ⟨Nat.lt_succ_self j, hv⟩]
      · rw [Function.update_noteq hj, ih j]
        by_cases hp : (arr j).value = slot
        · rcases Nat.lt_or_ge j m with hlt | hge
          · rw [if_pos ⟨hlt, hp⟩, if_pos ⟨Nat.lt_succ_of_lt hlt, hp⟩]
          · have h1 : ¬(j < m ∧ (arr j).value = slot) := fun h => absurd h.1 (Nat.not_lt.mpr hge)
            have h2 : ¬(j < m + 1 ∧ (arr j).value = slot) := by
              rintro ⟨hlt, _⟩
              exact hj (Nat.le_antisymm (Nat.lt_succ_iff.mp hlt) hge)
            rw [if_neg h1, if_neg h2]
        · rw [if_neg (fun h => hp h.2), if_neg (fun h => hp h.2)]
    · rw [hm, if_neg hv, ih j]
      by_cases hp : (arr j).value = slot
      · by_cases hj : j < m
        · rw [if_pos ⟨hj, hp⟩, if_pos ⟨Nat.lt_succ_of_lt hj, hp⟩]
        · have h2 : ¬(j < m + 1 ∧ (arr j).value = slot) := by
            rintro ⟨hlt, hp2⟩
            have hje : j = m := Nat.le_antisymm (Nat.lt_succ_iff.mp hlt) (Nat.not_lt.mp hj)
            subst hje
            exact hv hp2
          rw [if_neg (fun h => hj h.1), if_neg h2]
      · rw [if_neg (fun h => hp h.2), if_neg (fun h => hp h.2)]

theorem hashScan_snd (slot : Nat) (excl : Bool) (n : Nat) (arr : Nat → EntityIdx) :
    (hashScan slot excl n arr).2 = true ↔ ∃ m, m < n ∧ (arr m).value = slot := by
  induction n with
  | zero =>
    simp [hashScan]
  | succ m ih =>
    have hm : (hashScan slot excl m arr).1 m = arr m := by
      rw [hashScan_fst_apply]
      simp
    simp only [hashScan]
    by_cases hv : (arr m).value = slot
    · rw [hm, if_pos hv]
      dsimp only
      constructor
      · intro _
        exact ⟨m, Nat.lt_succ_self m, hv⟩
      · intro _
        rfl
    · rw [hm, if_neg hv, ih]
      constructor
      · rintro ⟨k, hk, hkv⟩
        exact ⟨k, Nat.lt_succ_of_lt hk, hkv⟩
      · rintro ⟨k, hk, hkv⟩
        refine ⟨k, ?_, hkv⟩
        rcases Nat.lt_succ_iff_lt_or_eq.mp hk with h | h
        · exact h
        · subst h
          exact absurd hkv hv

theorem hashEntitiesLoop_spec (hash : Nat → Nat) (ce : Nat) (hce : 0 < ce) :
    ∀ (rest processed : List EntityType) (n kept : Nat) (arr : Nat → EntityIdx),
    n = processed.length →
    kept ≤ n →
    (∀ i j, i < j → j < kept → (arr i).value ≠ (arr j).value) →
    (∀ i, i < kept → (arr i).value < ce) →
    (∀ i, i < kept → ∀ ent ∈ processed, slotOf hash ce ent = (arr i).value →
        ent.exclusive = true → (arr i).exclusive = true) →
    (kept = n → ∀ ent ∈ processed, ∃ i, i < kept ∧ (arr i).value = slotOf hash ce ent) →
    (hashEntitiesLoop hash ce rest n kept arr).2 ≤ n + rest.length ∧
    (∀ i j, i < j → j < (hashEntitiesLoop hash ce rest n kept arr).2 →
        ((hashEntitiesLoop hash ce rest n kept arr).1 i).value ≠
        ((hashEntitiesLoop hash ce rest n kept arr).1 j).value) ∧
    (∀ i, i < (hashEntitiesLoop hash ce rest n kept arr).2 →
        ((hashEntitiesLoop hash ce rest n kept arr).1 i).value < ce) ∧
    (∀ i, i < (hashEntitiesLoop hash ce rest n kept arr).2 →
        ∀ ent ∈ processed ++ rest,
        slotOf hash ce ent = ((hashEntitiesLoop hash ce rest n kept arr).1 i).value →
        ent.exclusive = true → ((hashEntitiesLoop hash ce rest n kept arr).1 i).exclusive = true) := by
  intro rest
  induction rest with
  | nil =>
    intro processed n kept arr hn hkn h2 h3 h4 h5
    simp only [hashEntitiesLoop, List.append_nil, List.length_nil]
    refine ⟨by omega, h2, h3, h4⟩
  | cons ent rest' ih =>
    intro processed n kept arr hn hkn h2 h3 h4 h5
    simp only [hashEntitiesLoop]
    set slot := hash ent.value % ce with hslot
    set arr1 := Function.update arr kept ⟨slot, ent.exclusive⟩ with harr1
    have harr1_lt : ∀ i, i < kept → arr1 i = arr i := by
      intro i hi
      rw [harr1, Function.update_noteq (Nat.ne_of_lt hi)]
    have harr1_kept : arr1 kept = ⟨slot, ent.exclusive⟩ := by
      rw [harr1, Function.update_same]
    set p := hashScan slot ent.exclusive n arr1 with hp
    have hp1 : ∀ j, p.1 j =
        if j < n ∧ (arr1 j).value = slot then
          ⟨(arr1 j).value, (arr1 j).exclusive || ent.exclusive⟩
        else arr1 j := hashScan_fst_apply slot ent.exclusive n arr1
    have hproc' : n + 1 = (processed ++ [ent]).length := by
      simp [hn]
    have hmem' : ∀ ent', ent' ∈ processed ++ ent :: rest' ↔
        ent' ∈ (processed ++ [ent]) ++ rest' := by
      intro ent'
      simp [List.mem_append, or_assoc]
    by_cases hskip : p.2 = true
    · -- the entity is skipped: kept is unchanged
      rw [if_pos hskip]
      have hval : ∀ i, i < kept → (p.1 i).value = (arr i).value := by
        intro i hi
        rw [hp1 i, harr1_lt i hi]
        by_cases hc : i < n ∧ (arr i).value = slot
        · rw [if_pos hc]
        · rw [if_neg hc]
      have hexcl : ∀ i, i < kept → (arr i).exclusive = true → (p.1 i).exclusive = true := by
        intro i hi hx
        rw [hp1 i, harr1_lt i hi]
        by_cases hc : i < n ∧ (arr i).value = slot
        · rw [if_pos hc]
          simp [hx]
        · rw [if_neg hc]
          exact hx
      have hslotup : ∀ i, i < kept → (arr i).value = slot → ent.exclusive = true →
          (p.1 i).exclusive = true := by
        intro i hi hv hx
        rw [hp1 i, harr1_lt i hi, if_pos ⟨Nat.lt_of_lt_of_le hi hkn, hv⟩]
        simp [hx]
      obtain ⟨c1, c2, c3, c4⟩ := ih (processed ++ [ent]) (n + 1) kept p.1 hproc'
        (Nat.le_succ_of_le hkn)
        (by
          intro i j hij hj
          rw [hval i (Nat.lt_trans hij hj), hval j hj]
          exact h2 i j hij hj)
        (by
          intro i hi
          rw [hval i hi]
          exact h3 i hi)
        (by
          intro i hi ent' hent' hv hx
          rcases List.mem_append.mp hent' with hmem | hmem
          · exact hexcl i hi (h4 i hi ent' hmem (by rw [hv, hval i hi]) hx)
          · have hent : ent' = ent := List.mem_singleton.mp hmem
            subst hent
            refine hslotup i hi ?_ hx
            have hv2 := hv
            rw [hval i hi] at hv2
            exact hv2.symm)
        (by
          intro hk
          exact absurd hk.symm (Nat.ne_of_gt (Nat.lt_succ_of_le hkn)))
      refine ⟨Nat.le_trans c1 (by simp only [List.length_cons]; omega), c2, c3, ?_⟩
      intro i hi ent' hent' hv hx
      exact c4 i hi ent' ((hmem' ent').mp hent') hv hx
    · -- the entity is kept at position kept, which advances
      rw [if_neg hskip]
      have hnoex : ¬∃ m, m < n ∧ (arr1 m).value = slot := by
        intro hex
        exact hskip ((hashScan_snd slot ent.exclusive n arr1).mpr hex)
      have hkeq : kept = n := by
        rcases Nat.lt_or_ge kept n with hlt | hge
        · exact absurd ⟨kept, hlt, by rw [harr1_kept]⟩ hnoex
        · exact Nat.le_antisymm hkn hge
      have hunch : ∀ i, i < kept → p.1 i = arr i := by
        intro i hi
        have hne : (arr1 i).value ≠ slot := by
          intro hc
          exact hnoex ⟨i, Nat.lt_of_lt_of_le hi hkn, hc⟩
        rw [hp1 i, if_neg (fun h => hne h.2), harr1_lt i hi]
      have hkeptval : p.1 kept = ⟨slot, ent.exclusive⟩ := by
        have hnk : ¬(kept < n ∧ (arr1 kept).value = slot) := by
          rintro ⟨hlt, _⟩
          omega
        rw [hp1 kept, if_neg hnk, harr1_kept]
      obtain ⟨c1, c2, c3, c4⟩ := ih (processed ++ [ent]) (n + 1) (kept + 1) p.1 hproc'
        (Nat.succ_le_succ hkn)
        (by
          intro i j hij hj
          rcases Nat.lt_succ_iff_lt_or_eq.mp hj with hjk | hjk
          · rw [hunch i (Nat.lt_trans hij hjk), hunch j hjk]
            exact h2 i j hij hjk
          · subst hjk
            rw [hunch i hij, hkeptval]
            intro hc
            exact hnoex ⟨i, Nat.lt_of_lt_of_le hij hkn, by rw [harr1_lt i hij]; exact hc⟩)
        (by
          intro i hi
          rcases Nat.lt_succ_iff_lt_or_eq.mp hi with hik | hik
          · rw [hunch i hik]
            exact h3 i hik
          · subst hik
            rw [hkeptval]
            exact Nat.mod_lt _ hce)
        (by
          intro i hi ent' hent' hv hx
          rcases Nat.lt_succ_iff_lt_or_eq.mp hi with hik | hik
          · rw [hunch i hik] at hv ⊢
            rcases List.mem_append.mp hent' with hmem | hmem
            · exact h4 i hik ent' hmem hv hx
            · have hent : ent' = ent := List.mem_singleton.mp hmem
              subst hent
              exact absurd ⟨i, Nat.lt_of_lt_of_le hik hkn,
                by rw [harr1_lt i hik]; exact hv.symm⟩ hnoex
          · subst hik
            rw [hkeptval] at hv ⊢
            rcases List.mem_append.mp hent' with hmem | hmem
            · rcases h5 hkeq ent' hmem with ⟨j, hjk, hjv⟩
              exact absurd ⟨j, Nat.lt_of_lt_of_le hjk hkn,
                by rw [harr1_lt j hjk, hjv]; exact hv⟩ hnoex
            · have hent : ent' = ent := List.mem_singleton.mp hmem
              subst hent
              exact hx)
        (by
          intro _ ent' hent'
          rcases List.mem_append.mp hent' with hmem | hmem
          · rcases h5 hkeq ent' hmem with ⟨j, hjk, hjv⟩
            exact ⟨j, Nat.lt_succ_of_lt hjk, by rw [hunch j hjk]; exact hjv⟩
          · have hent : ent' = ent := List.mem_singleton.mp hmem
            subst hent
            exact ⟨kept, Nat.lt_succ_self kept, by rw [hkeptval]; rfl⟩)
      refine ⟨Nat.le_trans c1 (by simp only [List.length_cons]; omega), c2, c3, ?_⟩
      intro i hi ent' hent' hv hx
      exact c4 i hi ent' ((hmem' ent').mp hent') hv hx

/-- C9: for every input entities list, `memory_map::_hash_entities`
returns a span of index entries in which no two entries carry the same
slot value, every slot value is strictly less than the hash table's
entry count (having been reduced modulo `_container_entries`), and an
entry's exclusive bit is set if any input entity hashing to that slot
requested exclusive access (exclusive wins over shared when entities
collide on a slot). -/
theorem C9_hash_entities_spec (hash : Nat → Nat) (ce : Nat) (hce : 0 < ce)
    (entities : List EntityType) (init : Nat → EntityIdx) :
    ((hash_entities hash ce entities init).map EntityIdx.value).Nodup ∧
    (∀ e ∈ hash_entities hash ce entities init, e.value < ce) ∧
    (∀ e ∈ hash_entities hash ce entities init, ∀ ent ∈ entities,
      hash ent.value % ce = e.value → ent.exclusive = true → e.exclusive = true) := by
  obtain ⟨c1, c2, c3, c4⟩ := hashEntitiesLoop_spec hash ce hce entities [] 0 0 init rfl
    (Nat.le_refl 0)
    (by intro i j _ hj; exact absurd hj (Nat.not_lt_zero j))
    (by intro i hi; exact absurd hi (Nat.not_lt_zero i))
    (by intro i hi; exact absurd hi (Nat.not_lt_zero i))
    (by intro _ ent hent; exact absurd hent (List.not_mem_nil ent))
  refine ⟨?_, ?_, ?_⟩
  · rw [hash_entities, List.map_map]
    refine List.Nodup.map_on ?_ (List.nodup_range _)
    intro x hx y hy hxy
    rw [List.mem_range] at hx hy
    rcases Nat.lt_trichotomy x y with h | h | h
    · exact absurd hxy (c2 x y h hy)
    · exact h
    · exact absurd hxy.symm (c2 y x h hx)
  · intro e he
    rw [hash_entities] at he
    obtain ⟨i, hi, rfl⟩ := List.mem_map.mp he
    exact c3 i (List.mem_range.mp hi)
  · intro e he ent hent hv hx
    rw [hash_entities] at he
    obtain ⟨i, hi, rfl⟩ := List.mem_map.mp he
    exact c4 i (List.mem_range.mp hi) ent (by simpa using hent) hv hx

/-- Witness for C9 at a concrete input: identity hash, 128 slots, three
entities two of which collide on slot 5 (the second requesting exclusive
access) and one landing on slot 72. -/
theorem C9_hash_entities_spec_witness :
    (0 : Nat) < 128 ∧
    (((hash_entities (fun v => v) 128 [⟨5, false⟩, ⟨5, true⟩, ⟨200, true⟩]
        (fun _ => ⟨0, false⟩)).map EntityIdx.value).Nodup ∧
     (∀ e ∈ hash_entities (fun v => v) 128 [⟨5, false⟩, ⟨5, true⟩, ⟨200, true⟩]
        (fun _ => ⟨0, false⟩), e.value < 128) ∧
     (∀ e ∈ hash_entities (fun v => v) 128 [⟨5, false⟩, ⟨5, true⟩, ⟨200, true⟩]
        (fun _ => ⟨0, false⟩),
      ∀ ent ∈ ([⟨5, false⟩, ⟨5, true⟩, ⟨200, true⟩] : List EntityType),
      (fun v => v) ent.value % 128 = e.value → ent.exclusive = true →
        e.exclusive = true)) :=
  ⟨by decide, C9_hash_entities_spec (fun v => v) 128 (by decide)
    [⟨5, false⟩, ⟨5, true⟩, ⟨200, true⟩] (fun _ => ⟨0, false⟩)⟩

/-- State of one hash-table slot's `shared_spinlock`, modelling the
external boost-lite `configurable_spinlock::shared_spinlock` semantics:
unlocked, read-held by `k + 1` sharers, or write-held.  The spinlock
implementation lives outside this repository; only its standard
reader-writer semantics (`try_lock` succeeds iff unlocked,
`try_lock_shared` succeeds iff not write-held, the unlocks undo them)
are used by `memory_map::_lock` and `memory_map::unlock`. -/
inductive SlotState
  | unlocked
  | lockedShared (k : Nat)
  | lockedExclusive
deriving DecidableEq, Repr

/-- The whole hash index `_index()`: slot number to spinlock state. -/
abbrev LockTable : Type := Nat → SlotState

/-- `try_lock` / `try_lock_shared` on one slot, selected by the entry's
exclusive bit as in `entity_to_idx[n].exclusive ? try_lock() :
try_lock_shared()`. -/
def tryLockSlot (excl : Bool) (s : SlotState) : Option SlotState :=
  match excl, s with
  | true, SlotState.unlocked => some SlotState.lockedExclusive
  | true, SlotState.lockedShared _ => none
  | true, SlotState.lockedExclusive => none
  | false, SlotState.unlocked => some (SlotState.lockedShared 0)
  | false, SlotState.lockedShared k => some (SlotState.lockedShared (k + 1))
  | false, SlotState.lockedExclusive => none

/-- `unlock` / `unlock_shared` on one slot, selected by the entry's
exclusive bit as in `i.exclusive ? unlock() : unlock_shared()`. -/
def unlockSlot (excl : Bool) (s : SlotState) : SlotState :=
  match excl, s with
  | true, _ => SlotState.unlocked
  | false, SlotState.unlocked => SlotState.unlocked
  | false, SlotState.lockedShared 0 => SlotState.unlocked
  | false, SlotState.lockedShared (k + 1) => SlotState.lockedShared k
  | false, SlotState.lockedExclusive => SlotState.unlocked

/-- One `try_lock` step of `_lock`'s inner acquisition loop on the slot
named by an `_entity_idx` entry. -/
def tryAcquire (t : LockTable) (e : EntityIdx) : Option LockTable :=
  match tryLockSlot e.exclusive (t e.value) with
  | some s => some (Function.update t e.value s)
  | none => none

/-- Unlocking the slot named by one `_entity_idx` entry, as in
`memory_map::unlock`. -/
def releaseOne (t : LockTable) (e : EntityIdx) : LockTable :=
  Function.update t e.value (unlockSlot e.exclusive (t e.value))

/-- The unwind performed by `_lock`'s inner `Undoer`: entries are
released from index `n - 1` down to `0`, i.e. in reverse order of
acquisition.  The argument list is the reversed list of entries
acquired so far. -/
def releaseAll : List EntityIdx → LockTable → LockTable
  | [], t => t
  | e :: rest, t => releaseAll rest (releaseOne t e)

/-- `_lock`'s inner `for(n = 0; n < entity_to_idx.size(); n++)` loop:
acquire each entry's slot in turn; on the first failure, run the
`Undoer` (releasing all slots acquired so far, restoring the table) and
report the contended index `was_contended = n`.  Returns the resulting
table and `none` on success, or `some was_contended` on failure. -/
def lockAttemptGo : List EntityIdx → List EntityIdx → LockTable → LockTable × Option Nat
  | [], _, t => (t, none)
  | e :: rest, accRev, t =>
    match tryAcquire t e with
    | some t' => lockAttemptGo rest (e :: accRev) t'
    | none => (releaseAll accRev t, some accRev.length)

/-- One full acquisition attempt over the deduplicated entry list. -/
def lockAttempt (l : List EntityIdx) (t : LockTable) : LockTable × Option Nat :=
  lockAttemptGo l [] t

/-- The `deadline` value used by `_lock`: absent, relative to the steady
clock (`d.steady` with `d.nsecs`), or an absolute wall-clock point
(`d.to_time_point()`, held in `utcEnd`). -/
structure MMDeadline where
  present : Bool
  steady : Bool
  nsecs : Nat
  utcEnd : Nat
deriving DecidableEq, Repr

/-- `_lock`'s deadline expiry test, performed after a failed attempt:
`steady_clock::now() >= began_steady + nanoseconds(d.nsecs)` on the
steady clock for relative deadlines, or
`system_clock::now() >= end_utc` on the wall clock for absolute ones. -/
def expiryCheck (d : MMDeadline) (beganSteady steadyNow utcNow : Nat) : Bool :=
  d.present &&
    (if d.steady then decide (beganSteady + d.nsecs ≤ steadyNow)
     else decide (d.utcEnd ≤ utcNow))

/-- `std::swap(entity_to_idx[was_contended], entity_to_idx[0])`. -/
def swapToFront (l : List EntityIdx) (wc : Nat) : List EntityIdx :=
  (l.set wc (l.getD 0 default)).set 0 (l.getD wc default)

/-- The reordering performed before retrying: the contended entry is
swapped to the front, then `std::random_shuffle(front + 1, end)`
permutes the remainder; the shuffle's randomness is an oracle indexed
by the retry round. -/
def reorderEntries (shuffle : Nat → List EntityIdx → List EntityIdx) (round : Nat)
    (l : List EntityIdx) (wc : Nat) : List EntityIdx :=
  match swapToFront l wc with
  | [] => []
  | h :: tail => h :: shuffle round tail

/-- Result of `_lock`: success holding all slots, a timed-out error
return, or still spinning when the retry fuel runs out. -/
inductive LockOutcome
  | success (t : LockTable)
  | timedOut (t : LockTable)
  | spinning (l : List EntityIdx) (t : LockTable)

/-- `_lock`'s outer `for(;;)` retry loop.  Each round makes one full
acquisition attempt; on success it returns with all slots held, on
contention the inner `Undoer` has already restored the table, the
deadline is checked against the clock readings of this round
(`steadyC round` / `utcC round`), and on expiry `ETIMEDOUT` is
returned; otherwise the entries are reordered and the loop retries.
`fuel` bounds the number of rounds modelled. -/
def lockLoop (shuffle : Nat → List EntityIdx → List EntityIdx) (steadyC utcC : Nat → Nat)
    (d : MMDeadline) (began : Nat) :
    Nat → Nat → List EntityIdx → LockTable → LockOutcome
  | 0, _, l, t => LockOutcome.spinning l t
  | fuel + 1, round, l, t =>
    match (lockAttempt l t).2 with
    | none => LockOutcome.success (lockAttempt l t).1
    | some wc =>
      if expiryCheck d began (steadyC round) (utcC round) then
        LockOutcome.timedOut (lockAttempt l t).1
      else lockLoop shuffle steadyC utcC d began fuel (round + 1)
        (reorderEntries shuffle round l wc) (lockAttempt l t).1

/-- `memory_map::_lock` over an already-hashed entry list: on entry,
`began_steady = steady_clock::now()` is captured once iff the deadline
is a relative (steady) one; round `r ≥ 1` of the retry loop reads the
clocks at index `r`. -/
def mmLock (shuffle : Nat → List EntityIdx → List EntityIdx) (steadyC utcC : Nat → Nat)
    (d : MMDeadline) (fuel : Nat) (l : List EntityIdx) (t : LockTable) : LockOutcome :=
  let began := if d.present && d.steady then steadyC 0 else 0
  lockLoop shuffle steadyC utcC d began fuel 1 l t

/-- `memory_map::unlock`: release every deduplicated entry's slot. -/
def mmUnlock (l : List EntityIdx) (t : LockTable) : LockTable :=
  releaseAll l t

/-- The lock an entry's slot is expected to hold after a successful
`_lock`: write-held for an exclusive entry, read-held otherwise. -/
def slotHeld (t : LockTable) (e : EntityIdx) : Prop :=
  if e.exclusive then t e.value = SlotState.lockedExclusive
  else ∃ k, t e.value = SlotState.lockedShared k

theorem releaseOne_tryAcquire (t t' : LockTable) (e : EntityIdx)
    (h : tryAcquire t e = some t') : releaseOne t' e = t := by
  rw [tryAcquire] at h
  rcases hs : tryLockSlot e.exclusive (t e.value) with _ | s
  · rw [hs] at h
    exact absurd h (by simp)
  · rw [hs] at h
    have ht' : t' = Function.update t e.value s := by
      simpa using h.symm
    subst ht'
    have hinv : unlockSlot e.exclusive s = t e.value := by
      cases hx : e.exclusive <;> rw [hx] at hs <;>
        cases hv : t e.value <;> rw [hv] at hs <;>
        simp only [tryLockSlot] at hs <;>
        first
          | exact Option.noConfusion hs
          | (injection hs with hs; subst hs; rfl)
    rw [releaseOne, Function.update_same, hinv, Function.update_idem,
      Function.update_eq_self]

theorem lockAttemptGo_fail (rest : List EntityIdx) :
    ∀ (accRev : List EntityIdx) (t t' : LockTable) (wc : Nat),
    lockAttemptGo rest accRev t = (t', some wc) →
    t' = releaseAll accRev t := by
  induction rest with
  | nil =>
    intro accRev t t' wc h
    rw [lockAttemptGo] at h
    exact absurd (congrArg Prod.snd h) (by simp)
  | cons e rest' ih =>
    intro accRev t t' wc h
    rw [lockAttemptGo] at h
    rcases ha : tryAcquire t e with _ | t1
    · rw [ha] at h
      exact (congrArg Prod.fst h).symm
    · rw [ha] at h
      have hrec := ih (e :: accRev) t1 t' wc h
      rw [hrec, releaseAll, releaseOne_tryAcquire t t1 e ha]

theorem lockAttempt_fail (l : List EntityIdx) (t t' : LockTable) (wc : Nat)
    (h : lockAttempt l t = (t', some wc)) : t' = t :=
  lockAttemptGo_fail l [] t t' wc h

theorem lockAttemptGo_wc_lt (rest : List EntityIdx) :
    ∀ (accRev : List EntityIdx) (t t' : LockTable) (wc : Nat),
    lockAttemptGo rest accRev t = (t', some wc) →
    wc < accRev.length + rest.length := by
  induction rest with
  | nil =>
    intro accRev t t' wc h
    rw [lockAttemptGo] at h
    exact absurd (congrArg Prod.snd h) (by simp)
  | cons e rest' ih =>
    intro accRev t t' wc h
    rw [lockAttemptGo] at h
    rcases ha : tryAcquire t e with _ | t1
    · rw [ha] at h
      have hwc : wc = accRev.length := by
        have := congrArg Prod.snd h
        simpa using this.symm
      subst hwc
      simp only [List.length_cons]
      omega
    · rw [ha] at h
      have := ih (e :: accRev) t1 t' wc h
      simp only [List.length_cons] at this ⊢
      omega

theorem lockAttemptGo_success_untouched (rest : List EntityIdx) :
    ∀ (accRev : List EntityIdx) (t t' : LockTable),
    lockAttemptGo rest accRev t = (t', none) →
    ∀ v, v ∉ rest.map EntityIdx.value → t' v = t v := by
  induction rest with
  | nil =>
    intro accRev t t' h v _
    rw [lockAttemptGo] at h
    injection h with h1 _
    rw [← h1]
  | cons e rest' ih =>
    intro accRev t t' h v hv
    rw [lockAttemptGo] at h
    rcases ha : tryAcquire t e with _ | t1
    · rw [ha] at h
      exact absurd (congrArg Prod.snd h) (by simp)
    · rw [ha] at h
      have hne : v ∉ rest'.map EntityIdx.value := by
        intro hc
        exact hv (by simp [hc])
      have hv2 : v ≠ e.value := by
        intro hc
        exact hv (by simp [hc])
      have ht1 : t1 v = t v := by
        rw [tryAcquire] at ha
        rcases hs : tryLockSlot e.exclusive (t e.value) with _ | s
        · rw [hs] at ha
          exact absurd ha (by simp)
        · rw [hs] at ha
          have : t1 = Function.update t e.value s := by
            simpa using ha.symm
          rw [this, Function.update_noteq hv2]
      rw [ih (e :: accRev) t1 t' h v hne, ht1]

theorem tryAcquire_self (t t1 : LockTable) (e : EntityIdx)
    (h : tryAcquire t e = some t1) : slotHeld t1 e := by
  rw [tryAcquire] at h
  rcases hs : tryLockSlot e.exclusive (t e.value) with _ | s
  · rw [hs] at h
    exact absurd h (by simp)
  · rw [hs] at h
    have ht1 : t1 = Function.update t e.value s := by
      simpa using h.symm
    subst ht1
    rw [slotHeld]
    cases hx : e.exclusive <;> rw [hx] at hs <;>
      cases hv : t e.value <;> rw [hv] at hs <;>
      simp only [tryLockSlot] at hs <;>
      first
        | exact Option.noConfusion hs
        | (injection hs with hs; subst hs;
           simp [Function.update_same])

theorem lockAttemptGo_success_held (rest : List EntityIdx) :
    ∀ (accRev : List EntityIdx) (t t' : LockTable),
    lockAttemptGo rest accRev t = (t', none) →
    (rest.map EntityIdx.value).Nodup →
    ∀ e ∈ rest, slotHeld t' e := by
  induction rest with
  | nil =>
    intro accRev t t' _ _ e he
    exact absurd he (List.not_mem_nil e)
  | cons e0 rest' ih =>
    intro accRev t t' h hnd e he
    rw [lockAttemptGo] at h
    rcases ha : tryAcquire t e0 with _ | t1
    · rw [ha] at h
      exact absurd (congrArg Prod.snd h) (by simp)
    · rw [ha] at h
      have hcons : e0.value ∉ rest'.map EntityIdx.value ∧
          (rest'.map EntityIdx.value).Nodup := by
        rw [List.map_cons, List.nodup_cons] at hnd
        exact hnd
      rcases List.mem_cons.mp he with he0 | hmem
      · subst he0
        have hself : slotHeld t1 e := tryAcquire_self t t1 e ha
        have huntouched := lockAttemptGo_success_untouched rest' (e :: accRev) t1 t' h
          e.value hcons.1
        rw [slotHeld] at hself ⊢
        cases hx : e.exclusive
        · simp only [hx, Bool.false_eq_true, if_false] at hself ⊢
          rcases hself with ⟨k, hk⟩
          exact ⟨k, by rw [huntouched]; exact hk⟩
        · simp only [hx, if_true] at hself ⊢
          rw [huntouched]
          exact hself
      · exact ih (e0 :: accRev) t1 t' h hcons.2 e hmem

theorem consGetD_set_perm (xs : List EntityIdx) :
    ∀ (wc : Nat) (x : EntityIdx), wc < xs.length →
    (xs.getD wc default :: xs.set wc x).Perm (x :: xs) := by
  induction xs with
  | nil =>
    intro wc x h
    exact absurd h (by simp)
  | cons y ys ih =>
    intro wc x h
    cases wc with
    | zero =>
      simp only [List.getD_cons_zero, List.set_cons_zero]
      exact List.Perm.swap x y ys
    | succ wc' =>
      simp only [List.getD_cons_succ, List.set_cons_succ]
      have h' : wc' < ys.length := by simpa using h
      refine (List.Perm.swap y (ys.getD wc' default) (ys.set wc' x)).trans ?_
      refine (List.Perm.cons y (ih wc' x h')).trans ?_
      exact List.Perm.swap x y ys

theorem swapToFront_zero (l : List EntityIdx) : swapToFront l 0 = l := by
  cases l with
  | nil => rfl
  | cons a as => simp [swapToFront]

theorem swapToFront_succ (x : EntityIdx) (xs : List EntityIdx) (wc : Nat) :
    swapToFront (x :: xs) (wc + 1) = xs.getD wc default :: xs.set wc x := by
  simp [swapToFront]

theorem swapToFront_perm (l : List EntityIdx) (wc : Nat) (h : wc < l.length) :
    (swapToFront l wc).Perm l := by
  cases l with
  | nil => exact absurd h (by simp)
  | cons x xs =>
    cases wc with
    | zero =>
      rw [swapToFront_zero]
    | succ wc' =>
      rw [swapToFront_succ]
      exact consGetD_set_perm xs wc' x (by simpa using h)

theorem reorderEntries_perm (shuffle : Nat → List EntityIdx → List EntityIdx)
    (round : Nat) (l : List EntityIdx) (wc : Nat) (h : wc < l.length)
    (hsh : ∀ tail, (shuffle round tail).Perm tail) :
    (reorderEntries shuffle round l wc).Perm l := by
  have hsw := swapToFront_perm l wc h
  rw [reorderEntries]
  rcases hx : swapToFront l wc with _ | ⟨h0, tail⟩
  · rw [hx] at hsw
    have hl : l = [] := (hsw.symm).eq_nil
    subst hl
    exact absurd h (by simp)
  · rw [hx] at hsw
    exact ((hsh tail).cons h0).trans hsw

theorem lockLoop_timedOut (shuffle : Nat → List EntityIdx → List EntityIdx)
    (steadyC utcC : Nat → Nat) (d : MMDeadline) (began : Nat) :
    ∀ (fuel round : Nat) (l : List EntityIdx) (t t' : LockTable),
    lockLoop shuffle steadyC utcC d began fuel round l t = LockOutcome.timedOut t' →
    t' = t := by
  intro fuel
  induction fuel with
  | zero =>
    intro round l t t' h
    rw [lockLoop] at h
    exact LockOutcome.noConfusion h
  | succ f ih =>
    intro round l t t' h
    rw [lockLoop] at h
    rcases ha : lockAttempt l t with ⟨t1, o⟩
    simp only [ha] at h
    cases o with
    | none =>
      dsimp only at h
      exact LockOutcome.noConfusion h
    | some wc =>
      dsimp only at h
      have ht1 : t1 = t := lockAttempt_fail l t t1 wc ha
      by_cases hexp : expiryCheck d began (steadyC round) (utcC round) = true
      · rw [if_pos hexp] at h
        injection h with h1
        rw [← h1, ht1]
      · rw [if_neg hexp] at h
        rw [ih (round + 1) (reorderEntries shuffle round l wc) t1 t' h, ht1]

theorem lockLoop_success (shuffle : Nat → List EntityIdx → List EntityIdx)
    (steadyC utcC : Nat → Nat) (d : MMDeadline) (began : Nat)
    (hsh : ∀ r tail, (shuffle r tail).Perm tail) :
    ∀ (fuel round : Nat) (l : List EntityIdx) (t t' : LockTable),
    (l.map EntityIdx.value).Nodup →
    lockLoop shuffle steadyC utcC d began fuel round l t = LockOutcome.success t' →
    ∀ e ∈ l, slotHeld t' e := by
  intro fuel
  induction fuel with
  | zero =>
    intro round l t t' _ h
    rw [lockLoop] at h
    exact LockOutcome.noConfusion h
  | succ f ih =>
    intro round l t t' hnd h e hel
    rw [lockLoop] at h
    rcases ha : lockAttempt l t with ⟨t1, o⟩
    simp only [ha] at h
    cases o with
    | none =>
      dsimp only at h
      injection h with h1
      rw [← h1]
      exact lockAttemptGo_success_held l [] t t1 ha hnd e hel
    | some wc =>
      dsimp only at h
      by_cases hexp : expiryCheck d began (steadyC round) (utcC round) = true
      · rw [if_pos hexp] at h
        exact LockOutcome.noConfusion h
      · rw [if_neg hexp] at h
        have hwc : wc < l.length := by
          have := lockAttemptGo_wc_lt l [] t t1 wc ha
          simpa using this
        have hperm := reorderEntries_perm shuffle round l wc hwc (hsh round)
        have hnd' : ((reorderEntries shuffle round l wc).map EntityIdx.value).Nodup :=
          ((hperm.map EntityIdx.value).nodup_iff).mpr hnd
        exact ih (round + 1) (reorderEntries shuffle round l wc) t1 t' hnd' h e
          (hperm.mem_iff.mpr hel)

/-- C10: `memory_map::_lock` is all-or-nothing.  Whenever it returns an
error (the `ETIMEDOUT` return once the deadline has elapsed), every
per-slot spinlock acquired during the failed attempt has been released
again, so the hash index is exactly as it was on entry; only on a
successful return does the caller hold every deduplicated entity slot's
lock (write-held for exclusive entries, read-held for shared ones). -/
theorem C10_lock_all_or_nothing (shuffle : Nat → List EntityIdx → List EntityIdx)
    (steadyC utcC : Nat → Nat) (d : MMDeadline) (fuel : Nat)
    (l : List EntityIdx) (t : LockTable)
    (hsh : ∀ r tail, (shuffle r tail).Perm tail)
    (hnd : (l.map EntityIdx.value).Nodup) :
    (∀ t', mmLock shuffle steadyC utcC d fuel l t = LockOutcome.timedOut t' → t' = t) ∧
    (∀ t', mmLock shuffle steadyC utcC d fuel l t = LockOutcome.success t' →
      ∀ e ∈ l, slotHeld t' e) := by
  constructor
  · intro t' h
    exact lockLoop_timedOut shuffle steadyC utcC d _ fuel 1 l t t' h
  · intro t' h
    exact lockLoop_success shuffle steadyC utcC d _ hsh fuel 1 l t t' hnd h

/-- Witness for C10 at a concrete input: two entries on distinct slots,
an identity shuffle, an immediately expiring steady deadline and one
round of fuel. -/
theorem C10_lock_all_or_nothing_witness :
    (∀ t', mmLock (fun _ tail => tail) (fun r => r) (fun r => r)
        ⟨true, true, 0, 0⟩ 1 [⟨1, true⟩, ⟨2, false⟩]
        (fun _ => SlotState.unlocked) = LockOutcome.timedOut t' →
      t' = fun _ => SlotState.unlocked) ∧
    (∀ t', mmLock (fun _ tail => tail) (fun r => r) (fun r => r)
        ⟨true, true, 0, 0⟩ 1 [⟨1, true⟩, ⟨2, false⟩]
        (fun _ => SlotState.unlocked) = LockOutcome.success t' →
      ∀ e ∈ ([⟨1, true⟩, ⟨2, false⟩] : List EntityIdx), slotHeld t' e) :=
  C10_lock_all_or_nothing (fun _ tail => tail) (fun r => r) (fun r => r)
    ⟨true, true, 0, 0⟩ 1 [⟨1, true⟩, ⟨2, false⟩] (fun _ => SlotState.unlocked)
    (fun _ tail => List.Perm.refl tail) (by decide)

theorem lockLoop_ext (shuffle : Nat → List EntityIdx → List EntityIdx)
    (s1 u1 s2 u2 : Nat → Nat) (d1 d2 : MMDeadline) (b1 b2 : Nat)
    (h : ∀ r, expiryCheck d1 b1 (s1 r) (u1 r) = expiryCheck d2 b2 (s2 r) (u2 r)) :
    ∀ (fuel round : Nat) (l : List EntityIdx) (t : LockTable),
    lockLoop shuffle s1 u1 d1 b1 fuel round l t =
    lockLoop shuffle s2 u2 d2 b2 fuel round l t := by
  intro fuel
  induction fuel with
  | zero =>
    intro round l t
    rw [lockLoop, lockLoop]
  | succ f ih =>
    intro round l t
    rw [lockLoop, lockLoop]
    rcases ha : lockAttempt l t with ⟨t1, o⟩
    simp only [ha]
    cases o with
    | none => rfl
    | some wc =>
      dsimp only
      rw [h round]
      by_cases hexp : expiryCheck d2 b2 (s2 round) (u2 round) = true
      · rw [if_pos hexp, if_pos hexp]
      · rw [if_neg hexp, if_neg hexp]
        exact ih (round + 1) (reorderEntries shuffle round l wc) t1

/-- C8: for every deadline handed to `memory_map::_lock`, expiry checks
are performed against the clock family the deadline was constructed
with (steady clock for relative durations, wall clock for absolute
points): a steady-deadline run is unchanged under any change of the
wall-clock trace and a wall-clock run is unchanged under any change of
the steady trace.  Moreover a relative deadline is converted into its
absolute endpoint exactly once, at first evaluation: the run is
identical to one driven by the fixed absolute endpoint
`steadyC 0 + d.nsecs` (the entry-time steady reading plus the
duration), checked against the steady clock on every subsequent poll. -/
theorem C8_deadline_clock_family (shuffle : Nat → List EntityIdx → List EntityIdx)
    (steadyC utcC : Nat → Nat) (d : MMDeadline) (fuel : Nat)
    (l : List EntityIdx) (t : LockTable) (hp : d.present = true) :
    (d.steady = true → ∀ utcC', mmLock shuffle steadyC utcC d fuel l t =
      mmLock shuffle steadyC utcC' d fuel l t) ∧
    (d.steady = false → ∀ steadyC', mmLock shuffle steadyC utcC d fuel l t =
      mmLock shuffle steadyC' utcC d fuel l t) ∧
    (d.steady = true → mmLock shuffle steadyC utcC d fuel l t =
      mmLock shuffle steadyC steadyC ⟨true, false, 0, steadyC 0 + d.nsecs⟩ fuel l t) := by
  refine ⟨?_, ?_, ?_⟩
  · intro hs utcC'
    rw [mmLock, mmLock]
    exact lockLoop_ext shuffle steadyC utcC steadyC utcC' d d _ _
      (by
        intro r
        rw [expiryCheck, expiryCheck, hs]
        simp) fuel 1 l t
  · intro hs steadyC'
    rw [mmLock, mmLock]
    have hb : (if d.present && d.steady then steadyC 0 else 0) =
        (if d.present && d.steady then steadyC' 0 else 0) := by
      rw [hp, hs]
      simp
    rw [← hb]
    exact lockLoop_ext shuffle steadyC utcC steadyC' utcC d d _ _
      (by
        intro r
        rw [expiryCheck, expiryCheck, hs]
        simp) fuel 1 l t
  · intro hs
    rw [mmLock, mmLock]
    refine lockLoop_ext shuffle steadyC utcC steadyC steadyC d
      ⟨true, false, 0, steadyC 0 + d.nsecs⟩ _ _ ?_ fuel 1 l t
    intro r
    rw [expiryCheck, expiryCheck, hp, hs]
    simp

/-- Witness for C8 at a concrete input: a relative two-tick steady
deadline, one entry, one round of fuel. -/
theorem C8_deadline_clock_family_witness :
    ((⟨true, true, 2, 7⟩ : MMDeadline).steady = true →
      ∀ utcC', mmLock (fun _ tail => tail) (fun r => r) (fun r => r)
          ⟨true, true, 2, 7⟩ 1 [⟨1, true⟩] (fun _ => SlotState.unlocked) =
        mmLock (fun _ tail => tail) (fun r => r) utcC'
          ⟨true, true, 2, 7⟩ 1 [⟨1, true⟩] (fun _ => SlotState.unlocked)) ∧
    ((⟨true, true, 2, 7⟩ : MMDeadline).steady = false →
      ∀ steadyC', mmLock (fun _ tail => tail) (fun r => r) (fun r => r)
          ⟨true, true, 2, 7⟩ 1 [⟨1, true⟩] (fun _ => SlotState.unlocked) =
        mmLock (fun _ tail => tail) steadyC' (fun r => r)
          ⟨true, true, 2, 7⟩ 1 [⟨1, true⟩] (fun _ => SlotState.unlocked)) ∧
    ((⟨true, true, 2, 7⟩ : MMDeadline).steady = true →
      mmLock (fun _ tail => tail) (fun r => r) (fun r => r)
          ⟨true, true, 2, 7⟩ 1 [⟨1, true⟩] (fun _ => SlotState.unlocked) =
        mmLock (fun _ tail => tail) (fun r => r) (fun r => r)
          ⟨true, false, 0, (fun r => r) 0 + (⟨true, true, 2, 7⟩ : MMDeadline).nsecs⟩
          1 [⟨1, true⟩] (fun _ => SlotState.unlocked)) :=
  C8_deadline_clock_family (fun _ tail => tail) (fun r => r) (fun r => r)
    ⟨true, true, 2, 7⟩ 1 [⟨1, true⟩] (fun _ => SlotState.unlocked) (by decide)

end MemoryMap

namespace DTPG

/-- The private fields of `dynamic_thread_pool_group::work_item`
(header lines 158-164).  Pointers are modelled as `Option Nat` handles,
`_nextwork` as an `Int` (`-1` when no work is pending), the two
time points as `Nat`. -/
structure WorkItemFields where
  parent : Option Nat
  internalworkh : Option Nat
  internaltimerh : Option Nat
  prev : Option Nat
  next : Option Nat
  nextwork : Int
  timepoint1 : Nat
  timepoint2 : Nat
  internalworkh_inuse : Nat
deriving DecidableEq, Repr

/-- A default-constructed `work_item`: all pointers null, `_nextwork`
`-1`, `_internalworkh_inuse` zero. -/
def workItemDefault : WorkItemFields :=
  ⟨none, none, none, none, none, -1, 0, 0, 0⟩

/-- The unrecoverable conditions reported through `LLFIO_LOG_FATAL`
followed by `abort()`. -/
inductive FatalError
  | relocatedInUse
  | destroyedBeforeWorkDone
  | destroyedBeforeGroupComplete
deriving DecidableEq, Repr

/-- The `work_item` move constructor (header lines 169-189): all fields
except `_internalworkh_inuse` are copied from `o`; if `o` still has a
parent group or a live internal work handle, the fatal
"relocated in memory during use" abort path is taken; otherwise the
moved-from object has its links cleared and `_nextwork` reset.  Returns
the pair (new object, moved-from object) on the non-fatal path. -/
def moveConstruct (o : WorkItemFields) :
    Except FatalError (WorkItemFields × WorkItemFields) :=
  if o.parent.isSome || o.internalworkh.isSome then
    Except.error FatalError.relocatedInUse
  else
    Except.ok
      ({ o with internalworkh_inuse := 0 },
       { o with prev := none, next := none, nextwork := -1 })

/-- The `work_item` destructor (header lines 194-210): if `_nextwork`
is not `-1` the fatal "destroyed before all work was done" abort path
is taken; if the internal work handle or the parent group pointer is
still set, the fatal "destroyed before group_complete() was executed"
abort path is taken. -/
def destroy (w : WorkItemFields) : Except FatalError Unit :=
  if w.nextwork ≠ -1 then Except.error FatalError.destroyedBeforeWorkDone
  else if w.internalworkh.isSome || w.parent.isSome then
    Except.error FatalError.destroyedBeforeGroupComplete
  else Except.ok ()

/-- C6: relocating a `work_item`'s storage (running its move
constructor) while it has a non-null parent group, or destroying a
`work_item` before it has been retired (`_nextwork` back at `-1`) and
notified via its completion callback (`_parent` cleared to null just
before `group_complete()`), is a fatal unrecoverable condition that
takes the abort path rather than returning a recoverable error. -/
theorem C6_relocation_destruction_fatal :
    (∀ o : WorkItemFields, o.parent.isSome = true →
      ∃ e, moveConstruct o = Except.error e) ∧
    (∀ w : WorkItemFields, w.parent.isSome = true ∨ w.nextwork ≠ -1 →
      ∃ e, destroy w = Except.error e) := by
  constructor
  · intro o hp
    refine ⟨FatalError.relocatedInUse, ?_⟩
    rw [moveConstruct, if_pos]
    rw [hp]
    simp
  · intro w hw
    by_cases hn : w.nextwork = -1
    · rcases hw with hp | hn'
      · refine ⟨FatalError.destroyedBeforeGroupComplete, ?_⟩
        rw [destroy, if_neg (by simp [hn]), if_pos]
        rw [hp]
        simp
      · exact absurd hn hn'
    · refine ⟨FatalError.destroyedBeforeWorkDone, ?_⟩
      rw [destroy, if_pos hn]

/-- Witness for C6: a work item still attached to group 0, and one with
pending work token 3. -/
theorem C6_relocation_destruction_fatal_witness :
    (∃ e, moveConstruct ⟨some 0, none, none, none, none, -1, 0, 0, 0⟩ =
      Except.error e) ∧
    (∃ e, destroy ⟨none, none, none, none, none, 3, 0, 0, 0⟩ =
      Except.error e) :=
  ⟨C6_relocation_destruction_fatal.1 ⟨some 0, none, none, none, none, -1, 0, 0, 0⟩
      (by decide),
   C6_relocation_destruction_fatal.2 ⟨none, none, none, none, none, 3, 0, 0, 0⟩
      (Or.inr (by decide))⟩

/-!
Operational model of the global dynamic thread pool scheduler.

Modelled from the spec: the scheduler implementation
(`detail/impl/dynamic_thread_pool_group.ipp`) is not among the sources,
only its interface header is; the model below follows the spec's §4-§5
algorithm: a registry of submitted items tagged with nesting level and
eligibility time, workers polling the deepest eligible item, dispatch
of returned work tokens, group-wide stop/failure aggregation, and a
drain step firing every member's completion callback.
-/

abbrev ItemId : Type := Nat
abbrev GroupId : Type := Nat

/-- Modelled from the spec: the error value `errc::operation_canceled`
returned by `submit` on a stopping group and recorded by `stop()`. -/
def operationCanceled : Nat := 125

/-- Modelled from the spec: per-item position in the
`idle/polling/dispatched/executing` cycle of §4.1's state machine. -/
inductive Phase
  | idle
  | polling
  | dispatched
  | executing
deriving DecidableEq, Repr

/-- Modelled from the spec: the scheduler-visible state of one work
item: owning group (none when unsubmitted), phase, the in-flight
guard counter, the current work token (`-1` when absent), and the next
eligibility time. -/
structure ItemSt where
  parent : Option GroupId
  phase : Phase
  inflight : Nat
  nextwork : Int
  eligibleAt : Nat
deriving DecidableEq, Repr

/-- An idle, unsubmitted work item. -/
def freshItem : ItemSt := ⟨none, Phase.idle, 0, -1, 0⟩

/-- Modelled from the spec: the state of one work group: all submitted
members (until completion-notified), the members not yet retired, the
stop/failure aggregate, and the nesting level. -/
structure GroupSt where
  members : List ItemId
  pending : List ItemId
  stopping : Bool
  firstFailure : Option Nat
  nesting : Nat
deriving DecidableEq, Repr

/-- A freshly constructed group at a given nesting level. -/
def freshGroup (nest : Nat) : GroupSt := ⟨[], [], false, none, nest⟩

/-- Modelled from the spec: the whole scheduler state: items, groups,
the registry of currently submitted items, a discrete clock, and the
(ghost) log of delivered `group_complete` results. -/
structure SchedState where
  items : ItemId → ItemSt
  groups : GroupId → GroupSt
  registry : List ItemId
  now : Nat
  completions : List (GroupId × Option Nat)

def setItem (s : SchedState) (i : ItemId) (v : ItemSt) : SchedState :=
  { s with items := Function.update s.items i v }

def setGroup (s : SchedState) (g : GroupId) (v : GroupSt) : SchedState :=
  { s with groups := Function.update s.groups g v }

/-- First failure wins: a later error is recorded only when none is
recorded yet. -/
def recordFailure (cur : Option Nat) (e : Nat) : Option Nat :=
  match cur with
  | some x => some x
  | none => some e

/-- The nesting level of the group owning an item (0 when unowned). -/
def nestingOf (s : SchedState) (i : ItemId) : Nat :=
  match (s.items i).parent with
  | some g => (s.groups g).nesting
  | none => 0

/-- Modelled from the spec: whether the scheduler may invoke `next` on
an item right now: the item is registered and submitted to a group that
is not stopping, still pending, idle, not in flight, and its
eligibility time has arrived. -/
def eligibleB (s : SchedState) (i : ItemId) : Bool :=
  match (s.items i).parent with
  | none => false
  | some g =>
    decide (i ∈ s.registry) && !(s.groups g).stopping &&
    decide (i ∈ (s.groups g).pending) &&
    decide ((s.items i).phase = Phase.idle) &&
    decide ((s.items i).inflight = 0) &&
    decide ((s.items i).eligibleAt ≤ s.now)

/-- Modelled from the spec: the fairness policy of §4.2: an item may be
pulled by an idle worker only if no eligible registered item has a
strictly deeper nesting level. -/
def priorityOk (s : SchedState) (i : ItemId) : Bool :=
  s.registry.all (fun j => !(eligibleB s j) || decide (nestingOf s j ≤ nestingOf s i))

/-- Modelled from the spec: creation of a work group; a group made from
inside an executing item inherits nesting level one greater than its
creator's. -/
def makeGroupOp (s : SchedState) (g : GroupId) (creator : Option ItemId) : SchedState :=
  let lvl := match creator with
    | some c => nestingOf s c + 1
    | none => 0
  setGroup s g (freshGroup lvl)

/-- Modelled from the spec: `submit`: rejected synchronously with
`errc::operation_canceled` and no state change while the group is
stopping; otherwise the items are attached to the group and registered
with the scheduler. -/
def submitOp (s : SchedState) (g : GroupId) (is : List ItemId) :
    SchedState × Option Nat :=
  if (s.groups g).stopping then (s, some operationCanceled)
  else
    ({ s with
        items := fun i => if i ∈ is then
            { s.items i with
              parent := some g
              phase := Phase.idle
              inflight := 0
              nextwork := -1
              eligibleAt := s.now }
          else s.items i
        groups := Function.update s.groups g
          { s.groups g with
            members := (s.groups g).members ++ is
            pending := (s.groups g).pending ++ is }
        registry := s.registry ++ is }, none)

/-- Modelled from the spec: `stop()`: a no-op on a group with no
submitted items (already stopped); otherwise the group starts stopping
and the cancellation indicator is recorded unless a failure already is. -/
def stopOp (s : SchedState) (g : GroupId) : SchedState :=
  if (s.groups g).members = [] then s
  else setGroup s g { s.groups g with
    stopping := true
    firstFailure := recordFailure (s.groups g).firstFailure operationCanceled }

/-- A worker starts a `next` poll: the in-flight guard is taken. -/
def pollStartOp (s : SchedState) (i : ItemId) : SchedState :=
  setItem s i { s.items i with
    phase := Phase.polling
    inflight := (s.items i).inflight + 1 }

/-- Modelled from the spec: the drain step: once the last pending
member retires, every member's `group_complete` is invoked with the
aggregated result, each member's parent reference cleared first and its
token and flags reset, and the group becomes reset to fresh. -/
def drainOp (s : SchedState) (g : GroupId) : SchedState :=
  { s with
    items := fun i => if i ∈ (s.groups g).members then freshItem else s.items i
    groups := Function.update s.groups g (freshGroup (s.groups g).nesting)
    completions := s.completions ++ [(g, (s.groups g).firstFailure)] }

/-- An item retires from its group: it leaves the pending set and the
registry; if it was the last pending member the group drains. -/
def retireOp (s : SchedState) (i : ItemId) (g : GroupId) : SchedState :=
  let g1 := { s.groups g with
    pending := (s.groups g).pending.filter (fun j => !decide (j = i)) }
  let s1 := { s with
    registry := s.registry.filter (fun j => !decide (j = i))
    groups := Function.update s.groups g g1
    items := Function.update s.items i
      { s.items i with
        phase := Phase.idle
        inflight := (s.items i).inflight - 1
        nextwork := -1 } }
  if g1.pending = [] then drainOp s1 g else s1

/-- Modelled from the spec: the scheduler's interpretation of the value
returned by `next(deadline &d)`: `-1` retires the item permanently from
its group, `0` requeues it no sooner than `now + delay`, and any other
value is a work token stored for dispatch to `execute`. -/
def pollReturnOp (s : SchedState) (i : ItemId) (r : Int) (delay : Nat) : SchedState :=
  match (s.items i).parent with
  | none => s
  | some g =>
    if r = -1 then retireOp s i g
    else if r = 0 then
      setItem s i { s.items i with
        phase := Phase.idle
        inflight := (s.items i).inflight - 1
        eligibleAt := s.now + delay }
    else
      setItem s i { s.items i with
        phase := Phase.dispatched
        inflight := (s.items i).inflight - 1
        nextwork := r }

/-- Whether a dispatched token may be handed to `execute` now: the
owning group must not be stopping and the in-flight guard free. -/
def execStartOk (s : SchedState) (i : ItemId) : Bool :=
  match (s.items i).parent with
  | none => false
  | some g =>
    !(s.groups g).stopping && decide ((s.items i).phase = Phase.dispatched) &&
    decide ((s.items i).inflight = 0)

/-- A worker starts `execute` on the dispatched token. -/
def execStartOp (s : SchedState) (i : ItemId) : SchedState :=
  setItem s i { s.items i with
    phase := Phase.executing
    inflight := (s.items i).inflight + 1 }

/-- Modelled from the spec: `execute` returns: on success the item is
requeued for another poll; an error is treated identically to the
group's `stop()`, recording the error as the group's aggregated failure
unless one is already recorded. -/
def execReturnOp (s : SchedState) (i : ItemId) (res : Option Nat) : SchedState :=
  let s1 := setItem s i { s.items i with
    phase := Phase.idle
    inflight := (s.items i).inflight - 1
    nextwork := -1
    eligibleAt := s.now }
  match (s.items i).parent, res with
  | some g, some e =>
    setGroup s1 g { s1.groups g with
      stopping := true
      firstFailure := recordFailure (s1.groups g).firstFailure e }
  | some _, none => s1
  | none, some _ => s1
  | none, none => s1

/-- Whether a pending item of a stopping group may be cancelled and
retired without being polled. -/
def cancelOk (s : SchedState) (i : ItemId) : Bool :=
  match (s.items i).parent with
  | none => false
  | some g =>
    (s.groups g).stopping && decide (i ∈ (s.groups g).pending) &&
    (decide ((s.items i).phase = Phase.idle) ||
     decide ((s.items i).phase = Phase.dispatched)) &&
    decide ((s.items i).inflight = 0)

/-- Retiring a cancelled item of a stopping group. -/
def cancelItemOp (s : SchedState) (i : ItemId) : SchedState :=
  match (s.items i).parent with
  | none => s
  | some g => retireOp s i g

/-- The discrete clock advances. -/
def tickOp (s : SchedState) : SchedState := { s with now := s.now + 1 }

/-- Modelled from the spec: the interleaved small-step transition
relation of the scheduler: each step is one scheduler event, with the
guards workers must respect. -/
inductive Step : SchedState → SchedState → Prop where
  | tick (s : SchedState) : Step s (tickOp s)
  | makeGroup (s : SchedState) (g : GroupId) (creator : Option ItemId)
      (hg : (s.groups g).members = [] ∧ (s.groups g).stopping = false)
      (hc : ∀ c, creator = some c → (s.items c).phase = Phase.executing) :
      Step s (makeGroupOp s g creator)
  | submit (s : SchedState) (g : GroupId) (is : List ItemId)
      (hnd : is.Nodup)
      (hfree : ∀ i ∈ is, (s.items i).parent = none ∧ (s.items i).inflight = 0) :
      Step s (submitOp s g is).1
  | stop (s : SchedState) (g : GroupId) : Step s (stopOp s g)
  | pollStart (s : SchedState) (i : ItemId)
      (he : eligibleB s i = true) (hpri : priorityOk s i = true) :
      Step s (pollStartOp s i)
  | pollReturn (s : SchedState) (i : ItemId) (r : Int) (delay : Nat)
      (hph : (s.items i).phase = Phase.polling) :
      Step s (pollReturnOp s i r delay)
  | execStart (s : SchedState) (i : ItemId) (h : execStartOk s i = true) :
      Step s (execStartOp s i)
  | execReturn (s : SchedState) (i : ItemId) (res : Option Nat)
      (hph : (s.items i).phase = Phase.executing) :
      Step s (execReturnOp s i res)
  | cancelItem (s : SchedState) (i : ItemId) (h : cancelOk s i = true) :
      Step s (cancelItemOp s i)

/-- The scheduler's initial state: no groups, no items, nothing
registered. -/
def schedInit : SchedState :=
  { items := fun _ => freshItem, groups := fun _ => freshGroup 0,
    registry := [], now := 0, completions := [] }

/-- Reachability from the initial scheduler state. -/
def Reach : SchedState → SchedState → Prop := Relation.ReflTransGen Step

theorem eligibleB_true (s : SchedState) (i : ItemId) (h : eligibleB s i = true) :
    ∃ g, (s.items i).parent = some g ∧ (s.groups g).stopping = false ∧
      i ∈ s.registry ∧ i ∈ (s.groups g).pending ∧ (s.items i).phase = Phase.idle ∧
      (s.items i).inflight = 0 ∧ (s.items i).eligibleAt ≤ s.now := by
  rw [eligibleB] at h
  rcases hp : (s.items i).parent with _ | g <;> rw [hp] at h
  · exact Bool.noConfusion h
  · simp only [Bool.and_eq_true, Bool.not_eq_true', decide_eq_true_eq] at h
    obtain ⟨⟨⟨⟨⟨hreg, hstop⟩, hpend⟩, hph⟩, hif⟩, hel⟩ := h
    exact ⟨g, rfl, hstop, hreg, hpend, hph, hif, hel⟩

theorem execStartOk_true (s : SchedState) (i : ItemId) (h : execStartOk s i = true) :
    ∃ g, (s.items i).parent = some g ∧ (s.groups g).stopping = false ∧
      (s.items i).phase = Phase.dispatched ∧ (s.items i).inflight = 0 := by
  rw [execStartOk] at h
  rcases hp : (s.items i).parent with _ | g <;> rw [hp] at h
  · exact Bool.noConfusion h
  · simp only [Bool.and_eq_true, Bool.not_eq_true', decide_eq_true_eq] at h
    exact ⟨g, rfl, h.1.1, h.1.2, h.2⟩

theorem cancelOk_true (s : SchedState) (i : ItemId) (h : cancelOk s i = true) :
    ∃ g, (s.items i).parent = some g ∧ (s.groups g).stopping = true ∧
      i ∈ (s.groups g).pending ∧ (s.items i).inflight = 0 := by
  rw [cancelOk] at h
  rcases hp : (s.items i).parent with _ | g <;> rw [hp] at h
  · exact Bool.noConfusion h
  · simp only [Bool.and_eq_true, Bool.or_eq_true, decide_eq_true_eq] at h
    exact ⟨g, rfl, h.1.1.1, h.1.1.2, h.2⟩

theorem drainOp_inflight (s : SchedState) (g : GroupId)
    (hinv : ∀ j, ((s.items j).inflight ≤ 1)) :
    ∀ j, (((drainOp s g).items j).inflight ≤ 1) := by
  intro j
  rw [drainOp]
  dsimp only
  by_cases hj : j ∈ (s.groups g).members
  · rw [if_pos hj]
    exact Nat.zero_le 1
  · rw [if_neg hj]
    exact hinv j

theorem retireOp_inflight (s : SchedState) (i : ItemId) (g : GroupId)
    (hinv : ∀ j, ((s.items j).inflight ≤ 1)) :
    ∀ j, (((retireOp s i g).items j).inflight ≤ 1) := by
  intro j
  rw [retireOp]
  dsimp only
  have hs1 : ∀ j, ((Function.update s.items i
      { s.items i with
        phase := Phase.idle
        inflight := (s.items i).inflight - 1
        nextwork := -1 }) j).inflight ≤ 1 := by
    intro j
    rw [Function.update_apply]
    by_cases hj : j = i
    · rw [if_pos hj]
      exact Nat.le_trans (Nat.sub_le _ _) (hinv i)
    · rw [if_neg hj]
      exact hinv j
  by_cases hd : ((s.groups g).pending.filter (fun j => !decide (j = i))) = []
  · rw [if_pos hd]
    exact drainOp_inflight _ g hs1 j
  · rw [if_neg hd]
    exact hs1 j

theorem inflight_preserved (s s' : SchedState) (hstep : Step s s')
    (hinv : ∀ j, ((s.items j).inflight ≤ 1)) :
    ∀ j, ((s'.items j).inflight ≤ 1) := by
  cases hstep with
  | tick => exact hinv
  | makeGroup g creator hg hc => exact hinv
  | submit g is hnd hfree =>
    intro j
    rw [submitOp]
    by_cases hst : (s.groups g).stopping = true
    · rw [if_pos hst]
      exact hinv j
    · rw [if_neg hst]
      dsimp only
      by_cases hj : j ∈ is
      · rw [if_pos hj]
        exact Nat.zero_le 1
      · rw [if_neg hj]
        exact hinv j
  | stop g =>
    intro j
    rw [stopOp]
    by_cases hm : (s.groups g).members = []
    · rw [if_pos hm]
      exact hinv j
    · rw [if_neg hm]
      exact hinv j
  | pollStart i he hpri =>
    intro j
    obtain ⟨g, hp, _, _, _, _, hif, _⟩ := eligibleB_true s i he
    rw [pollStartOp, setItem]
    dsimp only
    rw [Function.update_apply]
    by_cases hj : j = i
    · rw [if_pos hj]
      dsimp only
      rw [hif]
    · rw [if_neg hj]
      exact hinv j
  | pollReturn i r delay hph =>
    intro j
    rw [pollReturnOp]
    rcases hp : (s.items i).parent with _ | g
    · exact hinv j
    · dsimp only
      by_cases hr1 : r = -1
      · rw [if_pos hr1]
        exact retireOp_inflight s i g hinv j
      · rw [if_neg hr1]
        by_cases hr0 : r = 0
        · rw [if_pos hr0, setItem]
          dsimp only
          rw [Function.update_apply]
          by_cases hj : j = i
          · rw [if_pos hj]
            exact Nat.le_trans (Nat.sub_le _ _) (hinv i)
          · rw [if_neg hj]
            exact hinv j
        · rw [if_neg hr0, setItem]
          dsimp only
          rw [Function.update_apply]
          by_cases hj : j = i
          · rw [if_pos hj]
            exact Nat.le_trans (Nat.sub_le _ _) (hinv i)
          · rw [if_neg hj]
            exact hinv j
  | execStart i h =>
    intro j
    obtain ⟨g, hp, _, _, hif⟩ := execStartOk_true s i h
    rw [execStartOp, setItem]
    dsimp only
    rw [Function.update_apply]
    by_cases hj : j = i
    · rw [if_pos hj]
      dsimp only
      rw [hif]
    · rw [if_neg hj]
      exact hinv j
  | execReturn i res hph =>
    intro j
    rw [execReturnOp.eq_def]
    have hs1 : ∀ j, (((setItem s i { s.items i with
        phase := Phase.idle
        inflight := (s.items i).inflight - 1
        nextwork := -1
        eligibleAt := s.now }).items j).inflight ≤ 1) := by
      intro j
      rw [setItem]
      dsimp only
      rw [Function.update_apply]
      by_cases hj : j = i
      · rw [if_pos hj]
        exact Nat.le_trans (Nat.sub_le _ _) (hinv i)
      · rw [if_neg hj]
        exact hinv j
    rcases hp : (s.items i).parent with _ | g <;> cases res <;>
      dsimp only <;> exact hs1 j
  | cancelItem i h =>
    intro j
    rw [cancelItemOp]
    rcases hp : (s.items i).parent with _ | g
    · exact hinv j
    · exact retireOp_inflight s i g hinv j

theorem reach_inflight (s : SchedState) (h : Reach schedInit s) :
    ∀ j, ((s.items j).inflight ≤ 1) := by
  induction h with
  | refl =>
    intro j
    exact Nat.zero_le 1
  | tail hr hstep ih => exact inflight_preserved _ _ hstep ih

/-- An example run: one top-level group 0 with items 0 and 1. -/
def exG : SchedState := makeGroupOp schedInit 0 none

/-- Items 0 and 1 submitted to group 0. -/
def exS : SchedState := (submitOp exG 0 [0, 1]).1

/-- A worker polls item 0. -/
def exP0 : SchedState := pollStartOp exS 0

/-- Item 0's `next` returned token 1, which is dispatched. -/
def exD0 : SchedState := pollReturnOp exP0 0 1 0

/-- A worker starts `execute` on item 0's token. -/
def exE0 : SchedState := execStartOp exD0 0

/-- While item 0 executes, another worker polls item 1. -/
def exP1 : SchedState := pollStartOp exE0 1

theorem exReach : Reach schedInit exP1 :=
  Relation.ReflTransGen.tail
    (Relation.ReflTransGen.tail
      (Relation.ReflTransGen.tail
        (Relation.ReflTransGen.tail
          (Relation.ReflTransGen.tail
            (Relation.ReflTransGen.single
              (Step.makeGroup schedInit 0 none (by decide)
                (fun c hc => Option.noConfusion hc)))
            (Step.submit exG 0 [0, 1] (by decide) (by decide)))
          (Step.pollStart exS 0 (by decide) (by decide)))
        (Step.pollReturn exP0 0 1 0 (by decide)))
      (Step.execStart exD0 0 (by decide)))
    (Step.pollStart exE0 1 (by decide) (by decide))

/-- C2: for every work item, at most one invocation among its `next`
and `execute` callbacks is in flight at any instant: the per-item
in-flight guard never exceeds one, as an inductive invariant of the
scheduler model (preserved by every step, true initially, hence true in
every reachable state), while two distinct items (here of the same
group) can reach a state where both are in flight concurrently. -/
theorem C2_single_flight_guard :
    (∀ s s', (∀ j, ((s.items j).inflight ≤ 1)) → Step s s' →
      ∀ j, ((s'.items j).inflight ≤ 1)) ∧
    (∀ j, ((schedInit.items j).inflight ≤ 1)) ∧
    (∀ s, Reach schedInit s → ∀ j, ((s.items j).inflight ≤ 1)) ∧
    (∃ s, Reach schedInit s ∧ ∃ i j : ItemId, i ≠ j ∧
      (s.items i).inflight = 1 ∧ (s.items j).inflight = 1) := by
  refine ⟨?_, ?_, ?_, ?_⟩
  · intro s s' hinv hstep
    exact inflight_preserved s s' hstep hinv
  · intro j
    exact Nat.zero_le 1
  · intro s h
    exact reach_inflight s h
  · exact ⟨exP1, exReach, 0, 1, by decide, by decide, by decide⟩

/-- Witness for C2: the step-preservation conjunct applied to a clock
tick out of the initial state, at item 0. -/
theorem C2_single_flight_guard_witness :
    ((tickOp schedInit).items 0).inflight ≤ 1 :=
  C2_single_flight_guard.1 schedInit (tickOp schedInit) (fun _ => Nat.zero_le 1)
    (Step.tick schedInit) 0

theorem recordFailure_getD (cur : Option Nat) (e : Nat) :
    recordFailure cur e = some (cur.getD e) := by
  cases cur <;> rfl

/-- C1: if a work item's `execute` returns an error, the group behaves
as if `stop()` had been called: the group starts stopping, the error is
recorded as the group's aggregated failure unless one is already
recorded (first failure wins, expressed by `Option.getD`), no further
`next`/`execute` dispatch is possible for the group's items while it is
stopping, and the completion of the drained group (what `wait()`
returns) delivers exactly the recorded aggregated failure. -/
theorem C1_exec_error_stops_group :
    (∀ s i g e, (s.items i).parent = some g →
      ((execReturnOp s i (some e)).groups g).stopping = true ∧
      ((execReturnOp s i (some e)).groups g).firstFailure =
        some (((s.groups g).firstFailure).getD e)) ∧
    (∀ s i g, (s.items i).parent = some g → (s.groups g).stopping = true →
      eligibleB s i = false ∧ execStartOk s i = false) ∧
    (∀ s g, (drainOp s g).completions =
      s.completions ++ [(g, (s.groups g).firstFailure)]) := by
  refine ⟨?_, ?_, ?_⟩
  · intro s i g e hp
    rw [execReturnOp.eq_def, hp]
    dsimp only
    rw [setGroup]
    dsimp only
    rw [Function.update_same]
    exact ⟨rfl, recordFailure_getD _ e⟩
  · intro s i g hp hstop
    constructor
    · rw [eligibleB, hp]
      dsimp only
      rw [hstop]
      simp
    · rw [execStartOk, hp]
      dsimp only
      rw [hstop]
      simp
  · intro s g
    rw [drainOp]

/-- Witness for C1: item 0 of group 0 is executing in `exE0`; its
`execute` fails with error 7, and the stopped group rejects further
dispatch. -/
theorem C1_exec_error_stops_group_witness :
    (((execReturnOp exE0 0 (some 7)).groups 0).stopping = true ∧
     ((execReturnOp exE0 0 (some 7)).groups 0).firstFailure =
       some (((exE0.groups 0).firstFailure).getD 7)) ∧
    (eligibleB (stopOp exE0 0) 0 = false ∧
     execStartOk (stopOp exE0 0) 0 = false) :=
  ⟨C1_exec_error_stops_group.1 exE0 0 0 7 (by decide),
   C1_exec_error_stops_group.2.1 (stopOp exE0 0) 0 0 (by decide) (by decide)⟩

/-- C3: the scheduler interprets the value returned by
`next(deadline &d)` in exactly three ways: `-1` retires the item from
its group (out of the pending set and the registry, and a retired item
is never eligible for another poll); `0` leaves the item pending but
re-polled no sooner than the deadline it set (`now + delay`, and an
item whose eligibility time has not arrived is never eligible); any
other value is stored as the work token and the item moves to the
dispatched phase, from which only `execute` can be started. -/
theorem C3_next_return_classification :
    (∀ s i g delay, (s.items i).parent = some g →
      i ∉ ((pollReturnOp s i (-1) delay).groups g).pending ∧
      i ∉ (pollReturnOp s i (-1) delay).registry) ∧
    (∀ s i g delay, (s.items i).parent = some g →
      ((pollReturnOp s i 0 delay).items i).eligibleAt = s.now + delay ∧
      ((pollReturnOp s i 0 delay).items i).phase = Phase.idle) ∧
    (∀ s i, s.now < (s.items i).eligibleAt → eligibleB s i = false) ∧
    (∀ s i g r delay, (s.items i).parent = some g → r ≠ -1 → r ≠ 0 →
      ((pollReturnOp s i r delay).items i).nextwork = r ∧
      ((pollReturnOp s i r delay).items i).phase = Phase.dispatched) ∧
    (∀ s i g, (s.items i).parent = some g → i ∉ (s.groups g).pending →
      eligibleB s i = false) := by
  refine ⟨?_, ?_, ?_, ?_, ?_⟩
  · intro s i g delay hp
    rw [pollReturnOp.eq_def, hp]
    dsimp only
    rw [if_pos rfl, retireOp]
    dsimp only
    by_cases hd : ((s.groups g).pending.filter (fun j => !decide (j = i))) = []
    · rw [if_pos hd]
      constructor
      · rw [drainOp]
        dsimp only
        rw [Function.update_same]
        exact List.not_mem_nil i
      · rw [drainOp]
        dsimp only
        intro hc
        rcases List.mem_filter.mp hc with ⟨_, hdec⟩
        simp at hdec
    · rw [if_neg hd]
      constructor
      · dsimp only
        rw [Function.update_same]
        intro hc
        rcases List.mem_filter.mp hc with ⟨_, hdec⟩
        simp at hdec
      · dsimp only
        intro hc
        rcases List.mem_filter.mp hc with ⟨_, hdec⟩
        simp at hdec
  · intro s i g delay hp
    rw [pollReturnOp.eq_def, hp]
    dsimp only
    rw [if_neg (by decide), if_pos rfl, setItem]
    dsimp only
    rw [Function.update_same]
    exact ⟨rfl, rfl⟩
  · intro s i hlt
    rw [eligibleB]
    rcases hp : (s.items i).parent with _ | g
    · rfl
    · dsimp only
      have : decide ((s.items i).eligibleAt ≤ s.now) = false := by
        simp
        omega
      rw [this]
      simp
  · intro s i g r delay hp hr1 hr0
    rw [pollReturnOp.eq_def, hp]
    dsimp only
    rw [if_neg hr1, if_neg hr0, setItem]
    dsimp only
    rw [Function.update_same]
    exact ⟨rfl, rfl⟩
  · intro s i g hp hpend
    rw [eligibleB, hp]
    dsimp only
    have : decide (i ∈ (s.groups g).pending) = false := by
      simp [hpend]
    rw [this]
    simp

/-- Witness for C3: item 0 of group 0 is mid-poll in `exP0`; its three
possible `next` returns, and the two never-eligible situations. -/
theorem C3_next_return_classification_witness :
    (0 ∉ ((pollReturnOp exP0 0 (-1) 5).groups 0).pending ∧
     0 ∉ (pollReturnOp exP0 0 (-1) 5).registry) ∧
    (((pollReturnOp exP0 0 0 5).items 0).eligibleAt = exP0.now + 5 ∧
     ((pollReturnOp exP0 0 0 5).items 0).phase = Phase.idle) ∧
    (eligibleB (pollReturnOp exP0 0 0 5) 0 = false) ∧
    (((pollReturnOp exP0 0 3 5).items 0).nextwork = 3 ∧
     ((pollReturnOp exP0 0 3 5).items 0).phase = Phase.dispatched) :=
  ⟨C3_next_return_classification.1 exP0 0 0 5 (by decide),
   C3_next_return_classification.2.1 exP0 0 0 5 (by decide),
   C3_next_return_classification.2.2.1 (pollReturnOp exP0 0 0 5) 0 (by decide),
   C3_next_return_classification.2.2.2.1 exP0 0 0 3 5 (by decide) (by decide)
     (by decide)⟩

/-- C4: a group created by an executing work item gets nesting level
one greater than its creator's; the fairness guard only lets a worker
poll an item if no eligible registered item is more deeply nested, so
in particular any item strictly shallower than some eligible item is
never picked. -/
theorem C4_nested_preferential :
    (∀ s g c, ((makeGroupOp s g (some c)).groups g).nesting = nestingOf s c + 1) ∧
    (∀ s i, priorityOk s i = true → ∀ j ∈ s.registry, eligibleB s j = true →
      nestingOf s j ≤ nestingOf s i) ∧
    (∀ s i j, j ∈ s.registry → eligibleB s j = true →
      nestingOf s i < nestingOf s j → priorityOk s i = false) := by
  refine ⟨?_, ?_, ?_⟩
  · intro s g c
    simp [makeGroupOp, setGroup, freshGroup]
  · intro s i hpri j hj he
    have hall := List.all_eq_true.mp hpri j hj
    rw [he] at hall
    simp at hall
    exact hall
  · intro s i j hj he hlt
    cases hb : priorityOk s i
    · rfl
    · have hall := List.all_eq_true.mp hb j hj
      rw [he] at hall
      simp at hall
      omega

/-- Witness for C4: in `exE0`, item 0 is executing; a group it creates
gets nesting 1; and in `exS` the fairness guard for item 0 bounds the
nesting of eligible item 1. -/
theorem C4_nested_preferential_witness :
    (((makeGroupOp exE0 1 (some 0)).groups 1).nesting = nestingOf exE0 0 + 1) ∧
    (nestingOf exS 1 ≤ nestingOf exS 0) :=
  ⟨C4_nested_preferential.1 exE0 1 0,
   C4_nested_preferential.2.1 exS 0 (by decide) 1 (by decide) (by decide)⟩

/-- C5: while a group is stopping, `submit` fails synchronously with an
error comparing equal to `errc::operation_canceled` and attaches
nothing (the state is unchanged); once the group is not stopping — in
particular immediately after it has fully stopped and drained —
`submit` succeeds again. -/
theorem C5_submit_while_stopping :
    (∀ s g is, (s.groups g).stopping = true →
      (submitOp s g is).2 = some operationCanceled ∧ (submitOp s g is).1 = s) ∧
    (∀ s g is, (s.groups g).stopping = false → (submitOp s g is).2 = none) ∧
    (∀ s g is, ((drainOp s g).groups g).stopping = false ∧
      (submitOp (drainOp s g) g is).2 = none) := by
  have hsub : ∀ s g (is : List ItemId), (s.groups g).stopping = false →
      (submitOp s g is).2 = none := by
    intro s g is hstop
    rw [submitOp, if_neg (by rw [hstop]; exact Bool.false_ne_true)]
  have hdrain : ∀ s g, ((drainOp s g).groups g).stopping = false := by
    intro s g
    rw [drainOp]
    dsimp only
    rw [Function.update_same]
    rfl
  refine ⟨?_, hsub, ?_⟩
  · intro s g is hstop
    rw [submitOp, if_pos hstop]
    exact ⟨rfl, rfl⟩
  · intro s g is
    exact ⟨hdrain s g, hsub _ g is (hdrain s g)⟩

/-- Witness for C5: group 0 of `exS` has submitted members, so
`stopOp` puts it into the stopping state, where submitting item 2 is
rejected with `operation_canceled` and no state change; group 0 of
`exS` itself is not stopping and accepts item 2. -/
theorem C5_submit_while_stopping_witness :
    ((submitOp (stopOp exS 0) 0 [2]).2 = some operationCanceled ∧
     (submitOp (stopOp exS 0) 0 [2]).1 = stopOp exS 0) ∧
    (submitOp exS 0 [2]).2 = none :=
  ⟨C5_submit_while_stopping.1 (stopOp exS 0) 0 [2] (by decide),
   C5_submit_while_stopping.2.1 exS 0 [2] (by decide)⟩

/-- C7: after the drain step (all pending members retired, every
member's completion callback invoked), the group is indistinguishable
from a freshly constructed one at the same nesting level, every former
member is reset to the initial item state (parent cleared to null,
token `-1`, idle, no in-flight call), and a former member may
immediately be submitted again to the same or another non-stopping
group, becoming attached to it. -/
theorem C7_drained_group_fresh :
    (∀ s g, (drainOp s g).groups g = freshGroup (s.groups g).nesting) ∧
    (∀ s g i, i ∈ (s.groups g).members → (drainOp s g).items i = freshItem) ∧
    (freshItem.parent = none ∧ freshItem.nextwork = -1 ∧
      freshItem.phase = Phase.idle ∧ freshItem.inflight = 0) ∧
    (∀ s g g' i, i ∈ (s.groups g).members →
      ((drainOp s g).groups g').stopping = false →
      (submitOp (drainOp s g) g' [i]).2 = none ∧
      ((submitOp (drainOp s g) g' [i]).1.items i).parent = some g') := by
  refine ⟨?_, ?_, ⟨rfl, rfl, rfl, rfl⟩, ?_⟩
  · intro s g
    rw [drainOp]
    dsimp only
    rw [Function.update_same]
  · intro s g i hi
    rw [drainOp]
    dsimp only
    rw [if_pos hi]
  · intro s g g' i hi hstop
    constructor
    · rw [submitOp, if_neg (by rw [hstop]; exact Bool.false_ne_true)]
    · rw [submitOp, if_neg (by rw [hstop]; exact Bool.false_ne_true)]
      dsimp only
      rw [if_pos (List.mem_singleton.mpr rfl)]

/-- Witness for C7: draining group 0 of `exS` (members 0 and 1) resets
the group and item 0, which can then be resubmitted to group 0. -/
theorem C7_drained_group_fresh_witness :
    ((drainOp exS 0).groups 0 = freshGroup ((exS.groups 0).nesting)) ∧
    ((drainOp exS 0).items 0 = freshItem) ∧
    ((submitOp (drainOp exS 0) 0 [0]).2 = none ∧
     ((submitOp (drainOp exS 0) 0 [0]).1.items 0).parent = some 0) :=
  ⟨C7_drained_group_fresh.1 exS 0,
   C7_drained_group_fresh.2.1 exS 0 0 (by decide),
   C7_drained_group_fresh.2.2.2 exS 0 0 0 (by decide) (by decide)⟩

end DTPG
